import Mathlib

/-!
Shallow embedding of the Pascal's-triangle animation component
(`PascalTriangleAnimation`) and the pieces of its host page
(`MathSetsPage`) that the component's callbacks drive.

The combinatorial model (`buildPascal`, `totalSteps`, `stepToCell`), the
animation-controller state machine (step index, playback flag, completion
signal), and the layout/render pass (`drawCommands`) are each translated
directly from the source.  JavaScript loops become folds or flat-maps over
`List.range`; the unbounded search loop of `stepToCell` is given an explicit
fuel parameter so that non-termination is expressible; JavaScript numbers in
the layout code are modelled by `ℚ` (all divisors in the source are nonzero
integers derived from the row count, so exact arithmetic is faithful here).
-/

/-- `buildPascal` from the source: starts from `[[1]]` and, for each
`r = 1 .. n-1` (embedded as `r = k+1` for `k` over `List.range (n-1)`),
builds `[1, prev[0]+prev[1], ..., prev[r-2]+prev[r-1], 1]` from the previous
row `prev = triangle[r-1]` (the inner `for (let c = 1; c < r; c++)` loop is a
fold over `List.range (r-1)` with `c = i+1`), and appends it to the triangle.
Index reads are modelled with `List.getD`; every index the loops use is in
range, so the defaults are never consulted. -/
def buildPascal (n : Nat) : List (List Nat) :=
  (List.range (n - 1)).foldl
    (fun triangle k =>
      let r := k + 1
      let prev := triangle.getD (r - 1) []
      let row :=
        ((List.range (r - 1)).foldl
          (fun row i => row ++ [prev.getD i 0 + prev.getD (i + 1) 0]) [1]) ++ [1]
      triangle ++ [row])
    [[1]]

/-- `totalSteps` from the source: `count += r + 1` for `r = 0 .. rows-1`. -/
def totalSteps (rows : Nat) : Nat :=
  (List.range rows).foldl (fun count r => count + (r + 1)) 0

/-- Entry `(r, c)` of the triangle built for `n` rows
(the source reads `triangle[r][c]`). -/
def entry (n r c : Nat) : Nat :=
  ((buildPascal n).getD r []).getD c 0

/-- The body of `stepToCell`'s doubly nested loop, with explicit fuel.  The
source visits `(r, c)` pairs in row-major order with a running counter `s`,
returning `(r, c)` as soon as `s === step`; the loop has no other exit, so a
call that never hits `s === step` runs forever — modelled by `none` holding
for every fuel value.  One unit of fuel is one iteration of the inner body. -/
def stepToCellAux : Nat → Nat → Nat → Nat → Int → Option (Nat × Nat)
  | 0, _, _, _, _ => none
  | fuel + 1, s, r, c, step =>
    if (s : Int) = step then some (r, c)
    else if c < r then stepToCellAux fuel (s + 1) r (c + 1) step
    else stepToCellAux fuel (s + 1) (r + 1) 0 step

/-- `stepToCell` from the source, run with enough fuel to reach the target
counter value when `step ≥ 0` (`step.toNat + 1` iterations; the counter `s`
starts at `0` and increases by `1` per iteration).  `none` means the loop
never returns, which is the case exactly when `step < 0`. -/
def stepToCell (step : Int) : Option (Nat × Nat) :=
  stepToCellAux (step.toNat + 1) 0 0 0 step

/-- The active-addition effect from the source: `null` when the current step
is negative; otherwise `stepToCell(currentStep)`, kept only when
`cell.row > 0 && cell.col > 0 && cell.col < cell.row`.  The `none` branch of
the inner match is unreachable for `step ≥ 0` (the loop terminates there). -/
def activeAddition (step : Int) : Option (Nat × Nat) :=
  if step < 0 then none
  else
    match stepToCell step with
    | some (r, c) => if 0 < r ∧ 0 < c ∧ c < r then some (r, c) else none
    | none => none

/-- Observable controller state: the component's `currentStep` (an integer
starting at `-1`), the host's `pascalPlaying` flag, and a count of
`onComplete` invocations (the completion signal). -/
structure ControllerState where
  currentStep : Int
  isPlaying : Bool
  completions : Nat
deriving DecidableEq

/-- Initial state: `useState(-1)` for the step, host playback off, no
completion signal emitted yet. -/
def initState : ControllerState :=
  { currentStep := -1, isPlaying := false, completions := 0 }

/-- One firing of the auto-play interval callback, combined with the host's
completion handler.  While playing, `prev >= total - 1` fires `onComplete`
(counted) — whose handler `handlePascalComplete` sets `pascalPlaying` to
`false`, unmounting the interval — and leaves the step unchanged; otherwise
the step advances by one.  When `isPlaying` is `false` the effect never
installs an interval, so no tick fires: the state is unchanged. -/
def tick (total : Nat) (s : ControllerState) : ControllerState :=
  if s.isPlaying then
    if (total : Int) - 1 ≤ s.currentStep then
      { s with isPlaying := false, completions := s.completions + 1 }
    else
      { s with currentStep := s.currentStep + 1 }
  else s

/-- The manual step-trigger effect: `setCurrentStep(prev => Math.min(prev + 1,
total - 1))`.  It neither consults the playback flag nor calls `onComplete`. -/
def manualStep (total : Nat) (s : ControllerState) : ControllerState :=
  { s with currentStep := min (s.currentStep + 1) ((total : Int) - 1) }

/-- A reset: the rows-changed effect (`setCurrentStep(-1)`) or the host's
reset button, which also sets `pascalPlaying` to `false` and remounts the
component with a fresh `currentStep = -1`. -/
def resetState (s : ControllerState) : ControllerState :=
  { s with currentStep := -1, isPlaying := false }

/-- An operation in a manual advance/reset sequence. -/
inductive StepOp where
  | advance
  | reset
deriving DecidableEq

/-- Apply one advance/reset operation. -/
def applyOp (total : Nat) (s : ControllerState) : StepOp → ControllerState
  | .advance => manualStep total s
  | .reset => resetState s

/-- Run a sequence of advance/reset operations. -/
def runOps (total : Nat) (s : ControllerState) (ops : List StepOp) : ControllerState :=
  ops.foldl (applyOp total) s

/-- `cellSize` from `draw`:
`Math.min(48, Math.max(32, Math.min(w / (rows + 2), (h - 60) / (rows + 1))))`. -/
def cellSize (rows : Nat) (w h : ℚ) : ℚ :=
  min 48 (max 32 (min (w / ((rows : ℚ) + 2)) ((h - 60) / ((rows : ℚ) + 1))))

/-- `cellGap = cellSize * 0.25`. -/
def cellGap (rows : Nat) (w h : ℚ) : ℚ :=
  cellSize rows w h * (0.25 : ℚ)

/-- `totalCellW = cellSize + cellGap`. -/
def totalCellW (rows : Nat) (w h : ℚ) : ℚ :=
  cellSize rows w h + cellGap rows w h

/-- `startY = 40`. -/
def startY : ℚ := 40

/-- `rowWidth = triangle[r].length * totalCellW - cellGap`. -/
def rowWidth (rows : Nat) (w h : ℚ) (r : Nat) : ℚ :=
  ((((buildPascal rows).getD r []).length : ℚ)) * totalCellW rows w h - cellGap rows w h

/-- `xStart = (w - rowWidth) / 2`. -/
def xStart (rows : Nat) (w h : ℚ) (r : Nat) : ℚ :=
  (w - rowWidth rows w h r) / 2

/-- Cell centre x: `xStart + c * totalCellW + cellSize / 2`. -/
def posX (rows : Nat) (w h : ℚ) (r c : Nat) : ℚ :=
  xStart rows w h r + (c : ℚ) * totalCellW rows w h + cellSize rows w h / 2

/-- Cell centre y: `startY + r * (cellSize + cellGap * 2) + cellSize / 2`. -/
def posY (rows : Nat) (w h : ℚ) (r : Nat) : ℚ :=
  startY + (r : ℚ) * (cellSize rows w h + cellGap rows w h * 2) + cellSize rows w h / 2

/-- One element of the `positions` array built by `draw`. -/
structure CellPos where
  x : ℚ
  y : ℚ
  row : Nat
  col : Nat
  value : Nat
deriving DecidableEq

/-- The `positions` array: for every `r < rows` and `c < triangle[r].length`,
the centre coordinates, the cell coordinate, and `triangle[r][c]`. -/
def positions (rows : Nat) (w h : ℚ) : List CellPos :=
  (List.range rows).flatMap fun r =>
    (List.range (((buildPascal rows).getD r []).length)).map fun c =>
      { x := posX rows w h r c
        y := posY rows w h r
        row := r
        col := c
        value := ((buildPascal rows).getD r []).getD c 0 }

/-- `positions.find(p => p.row === r && p.col === c)`. -/
def findPos (ps : List CellPos) (r c : Nat) : Option CellPos :=
  ps.find? fun p => p.row == r && p.col == c

/-- The running reveal index of a cell, as computed in `draw` both by the
incrementing `stepIdx` counter of the cells loop and, in the arrows loop, by
`for (let rr = 0; rr < r; rr++) cellStepIdx += triangle[rr].length` plus `c`. -/
def rowLenSum (rows r : Nat) : Nat :=
  (((List.range r).map fun rr => ((buildPascal rows).getD rr []).length)).sum

/-- One drawing command issued by `draw`, with enough provenance to state
what information reaches the frame.  `placeholderCmd` is the dimmed
unknown-value marker branch (it renders the character, never the numeric
value); `cellValue` renders `String(triangle[r][c])`; `formulaCmd` renders
`left + right = value` under the active cell; `arrowCmd` is a parent edge
(it renders no number); `titleCmd` is the progress readout. -/
inductive DrawCmd where
  | background (w h : ℚ)
  | arrowCmd (x1 y1 x2 y2 : ℚ) (active : Bool)
  | placeholderCmd (r c : Nat) (x y : ℚ) (mark : Char)
  | cellValue (r c : Nat) (x y : ℚ) (v : Nat)
  | formulaCmd (r c : Nat) (x y : ℚ) (left rgt v : Nat)
  | titleCmd (stepDisp : Int) (total : Nat) (progress : Int)
deriving DecidableEq

/-- The arrows pass of `draw`: for `r = 1 .. rows-1` and each
`c < triangle[r].length`, skip cells whose reveal index exceeds the current
step, look up the child and (existing) parents in `positions`, and emit up to
two edges, highlighted when the cell is the active addition. -/
def arrowCmds (rows : Nat) (step : Int) (w h : ℚ) : List DrawCmd :=
  (List.range (rows - 1)).flatMap fun k =>
    let r := k + 1
    (List.range (((buildPascal rows).getD r []).length)).flatMap fun c =>
      let cellStepIdx := rowLenSum rows r + c
      if (cellStepIdx : Int) > step then []
      else
        match findPos (positions rows w h) r c with
        | none => []
        | some child =>
          let isActive := decide (activeAddition step = some (r, c))
          (if 0 < c then
            match findPos (positions rows w h) (r - 1) (c - 1) with
            | some lp =>
              [DrawCmd.arrowCmd lp.x (lp.y + cellSize rows w h / 2 + 2)
                (child.x - cellSize rows w h * (0.15 : ℚ))
                (child.y - cellSize rows w h / 2 - 2) isActive]
            | none => []
          else []) ++
          (if c < (((buildPascal rows).getD r []).length) - 1 then
            match findPos (positions rows w h) (r - 1) c with
            | some rp =>
              [DrawCmd.arrowCmd rp.x (rp.y + cellSize rows w h / 2 + 2)
                (child.x + cellSize rows w h * (0.15 : ℚ))
                (child.y - cellSize rows w h / 2 - 2) isActive]
            | none => []
          else [])

/-- The cells pass of `draw`: each cell is either the `'?'` placeholder (when
`stepIdx <= currentStep` fails) or its numeric value, plus the decomposition
formula when the cell is simultaneously the active addition and the current
step (`isActive && isCurrentStep && r > 0 && c > 0 && c < r`). -/
def cellCmds (rows : Nat) (step : Int) (w h : ℚ) : List DrawCmd :=
  (List.range rows).flatMap fun r =>
    (List.range (((buildPascal rows).getD r []).length)).flatMap fun c =>
      let stepIdx := rowLenSum rows r + c
      match findPos (positions rows w h) r c with
      | none => []
      | some pos =>
        if (stepIdx : Int) ≤ step then
          DrawCmd.cellValue r c pos.x pos.y (((buildPascal rows).getD r []).getD c 0) ::
          (if activeAddition step = some (r, c) ∧ (stepIdx : Int) = step ∧
              0 < r ∧ 0 < c ∧ c < r then
            [DrawCmd.formulaCmd r c pos.x (pos.y + cellSize rows w h / 2 + 8)
              (((buildPascal rows).getD (r - 1) []).getD (c - 1) 0)
              (((buildPascal rows).getD (r - 1) []).getD c 0)
              (((buildPascal rows).getD r []).getD c 0)]
          else [])
        else
          [DrawCmd.placeholderCmd r c pos.x pos.y '?']

/-- The progress percentage of the title readout:
`currentStep < 0 ? 0 : Math.min(100, Math.round(((currentStep + 1) / total) * 100))`. -/
def progressPct (step : Int) (total : Nat) : Int :=
  if step < 0 then 0
  else min 100 (round ((((step : ℚ) + 1) / (total : ℚ)) * 100))

/-- The full sequence of drawing commands issued by one `draw` call (after
the non-null canvas/context guards): the background fill, the arrows pass,
the cells pass, and the title readout.  The source performs no check on `w`
or `h`; a zero-size viewport flows through the same code. -/
def drawCommands (rows : Nat) (step : Int) (w h : ℚ) : List DrawCmd :=
  DrawCmd.background w h ::
    (arrowCmds rows step w h ++ cellCmds rows step w h ++
      [DrawCmd.titleCmd (max 0 (step + 1)) (totalSteps rows)
        (progressPct step (totalSteps rows))])

/-- Row `r` of Pascal's triangle as binomial coefficients (the specification
value the built triangle is compared with). -/
def chooseRow (r : Nat) : List Nat :=
  (List.range (r + 1)).map (Nat.choose r)

/-- The successor state of the row-major cell enumeration: within a row move
right, at the row's end move to the start of the next row.  This is exactly
how one iteration of `stepToCell`'s loop moves. -/
def advanceCell : Nat × Nat → Nat × Nat
  | (r, c) => if c < r then (r, c + 1) else (r + 1, 0)

theorem foldl_push {α : Type} (g : Nat → α) (l : List Nat) :
    ∀ a : List α, l.foldl (fun row i => row ++ [g i]) a = a ++ l.map g := by
  induction l with
  | nil => intro a; simp
  | cons i l ih => intro a; simp [ih]

theorem totalSteps_succ (n : Nat) : totalSteps (n + 1) = totalSteps n + (n + 1) := by
  unfold totalSteps
  rw [List.range_succ, List.foldl_append]
  rfl

theorem two_mul_totalSteps (n : Nat) : 2 * totalSteps n = n * (n + 1) := by
  induction n with
  | zero => rfl
  | succ m ih => rw [totalSteps_succ, Nat.mul_add, ih]; ring

theorem totalSteps_eq (n : Nat) : totalSteps n = n * (n + 1) / 2 := by
  have h := two_mul_totalSteps n
  omega

theorem totalSteps_mono {a b : Nat} (h : a ≤ b) : totalSteps a ≤ totalSteps b := by
  induction h with
  | refl => exact Nat.le_refl _
  | step h ih => rw [totalSteps_succ]; omega

theorem getD_map_range {α : Type} (f : Nat → α) (n i : Nat) (d : α) :
    ((List.range n).map f).getD i d = if i < n then f i else d := by
  by_cases h : i < n
  · simp [List.getD_eq_getElem?_getD, List.getElem?_map, List.getElem?_range, h]
  · rw [List.getD_eq_getElem?_getD, List.getElem?_eq_none] <;>
      simp [h, Nat.le_of_not_lt (by simpa using h)]

theorem chooseRow_getD (r i : Nat) (d : Nat) :
    (chooseRow r).getD i d = if i < r + 1 then Nat.choose r i else d :=
  getD_map_range _ _ _ _

theorem buildPascal_succ_succ (m : Nat) :
    buildPascal (m + 2) =
      buildPascal (m + 1) ++
        [((List.range m).foldl
            (fun row i =>
              row ++ [((buildPascal (m + 1)).getD m []).getD i 0 +
                      ((buildPascal (m + 1)).getD m []).getD (i + 1) 0]) [1]) ++ [1]] := by
  show (List.range (m + 1)).foldl _ _ = _
  rw [List.range_succ, List.foldl_append]
  rfl

theorem chooseRow_step (m : Nat) :
    ((List.range m).foldl
        (fun row i => row ++ [(chooseRow m).getD i 0 + (chooseRow m).getD (i + 1) 0])
        [1]) ++ [1] = chooseRow (m + 1) := by
  rw [foldl_push (fun i => (chooseRow m).getD i 0 + (chooseRow m).getD (i + 1) 0)]
  have hmap : (List.range m).map
      (fun i => (chooseRow m).getD i 0 + (chooseRow m).getD (i + 1) 0) =
      (List.range m).map (fun i => Nat.choose (m + 1) (i + 1)) := by
    apply List.map_congr_left
    intro i hi
    rw [List.mem_range] at hi
    rw [chooseRow_getD, chooseRow_getD, if_pos (by omega), if_pos (by omega),
      Nat.choose_succ_succ]
  rw [hmap]
  unfold chooseRow
  rw [List.range_succ, List.range_succ_eq_map]
  simp [List.map_map, Function.comp, Nat.choose_self, Nat.succ_eq_add_one]

theorem buildPascal_closed (n : Nat) :
    buildPascal (n + 1) = (List.range (n + 1)).map chooseRow := by
  induction n with
  | zero => rfl
  | succ m ih =>
    rw [buildPascal_succ_succ, ih, getD_map_range, if_pos (by omega), chooseRow_step]
    conv_rhs => rw [List.range_succ]
    simp

theorem buildPascal_length {n : Nat} (h : 1 ≤ n) : (buildPascal n).length = n := by
  obtain ⟨m, rfl⟩ := Nat.exists_eq_add_of_le h
  rw [Nat.add_comm, buildPascal_closed, List.length_map, List.length_range]

theorem buildPascal_row {n r : Nat} (h1 : 1 ≤ n) (hr : r < n) :
    (buildPascal n).getD r [] = chooseRow r := by
  obtain ⟨m, rfl⟩ := Nat.exists_eq_add_of_le h1
  rw [Nat.add_comm, buildPascal_closed, getD_map_range, if_pos (by omega)]

theorem buildPascal_row_length {n r : Nat} (h1 : 1 ≤ n) (hr : r < n) :
    ((buildPascal n).getD r []).length = r + 1 := by
  rw [buildPascal_row h1 hr]
  unfold chooseRow
  rw [List.length_map, List.length_range]

theorem entry_eq_choose {n r c : Nat} (h1 : 1 ≤ n) (hr : r < n) (hc : c ≤ r) :
    entry n r c = Nat.choose r c := by
  unfold entry
  rw [buildPascal_row h1 hr, chooseRow_getD, if_pos (by omega)]

theorem rowLenSum_eq {n r : Nat} (h1 : 1 ≤ n) (hr : r ≤ n) :
    rowLenSum n r = totalSteps r := by
  induction r with
  | zero => rfl
  | succ m ih =>
    unfold rowLenSum at ih ⊢
    rw [List.range_succ, List.map_append, List.sum_append, ih (by omega), totalSteps_succ]
    simp only [List.map_cons, List.map_nil, List.sum_cons, List.sum_nil]
    rw [buildPascal_row_length h1 (show m < n by omega)]
    omega

theorem advanceCell_apply (r c : Nat) :
    advanceCell (r, c) = if c < r then (r, c + 1) else (r + 1, 0) := rfl

theorem stepToCellAux_run (d : Nat) :
    ∀ s r c : Nat, stepToCellAux (d + 1) s r c ((s : Int) + (d : Int)) =
      some (advanceCell^[d] (r, c)) := by
  induction d with
  | zero =>
    intro s r c
    simp [stepToCellAux]
  | succ d ih =>
    intro s r c
    rw [show ((s : Int) + ((d + 1 : Nat) : Int)) = ((s + 1 : Nat) : Int) + (d : Int) by
      push_cast; ring]
    rw [show d + 1 + 1 = (d + 1) + 1 from rfl]
    unfold stepToCellAux
    rw [if_neg (by push_cast; omega)]
    rw [Function.iterate_succ_apply, advanceCell_apply]
    by_cases hcr : c < r
    · rw [if_pos hcr, if_pos hcr, ih (s + 1) r (c + 1)]
    · rw [if_neg hcr, if_neg hcr, ih (s + 1) (r + 1) 0]

theorem advanceCell_iterate_inv (k : Nat) :
    (advanceCell^[k] (0, 0)).2 ≤ (advanceCell^[k] (0, 0)).1 ∧
      totalSteps (advanceCell^[k] (0, 0)).1 + (advanceCell^[k] (0, 0)).2 = k := by
  induction k with
  | zero => exact ⟨Nat.le_refl 0, rfl⟩
  | succ m ih =>
    rw [Function.iterate_succ_apply']
    obtain ⟨h1, h2⟩ := ih
    set p := advanceCell^[m] (0, 0) with hp
    obtain ⟨r, c⟩ := p
    simp only at h1 h2
    rw [advanceCell_apply]
    by_cases hcr : c < r
    · rw [if_pos hcr]
      exact ⟨by omega, by simpa using by omega⟩
    · rw [if_neg hcr]
      have hc : c = r := by omega
      refine ⟨Nat.zero_le _, ?_⟩
      simp only [totalSteps_succ]
      omega

theorem cell_decomp_unique {r c r' c' : Nat} (h : c ≤ r) (h' : c' ≤ r')
    (heq : totalSteps r + c = totalSteps r' + c') : r = r' ∧ c = c' := by
  rcases Nat.lt_trichotomy r r' with hlt | heqr | hgt
  · exfalso
    have : totalSteps (r + 1) ≤ totalSteps r' := totalSteps_mono (by omega)
    rw [totalSteps_succ] at this
    omega
  · subst heqr
    exact ⟨rfl, by omega⟩
  · exfalso
    have : totalSteps (r' + 1) ≤ totalSteps r := totalSteps_mono (by omega)
    rw [totalSteps_succ] at this
    omega

theorem advanceCell_iterate_at {r c : Nat} (h : c ≤ r) :
    advanceCell^[totalSteps r + c] (0, 0) = (r, c) := by
  obtain ⟨h1, h2⟩ := advanceCell_iterate_inv (totalSteps r + c)
  obtain ⟨hr, hc⟩ := cell_decomp_unique h1 h h2
  rw [Prod.ext_iff]
  exact ⟨hr, hc⟩

theorem stepToCell_natCast (k : Nat) :
    stepToCell (k : Int) = some (advanceCell^[k] (0, 0)) := by
  unfold stepToCell
  rw [Int.toNat_natCast]
  have := stepToCellAux_run k 0 0 0
  rw [show ((0 : Nat) : Int) + (k : Int) = (k : Int) by ring] at this
  exact this

theorem stepToCell_rowMajor {r c : Nat} (h : c ≤ r) :
    stepToCell ((totalSteps r + c : Nat) : Int) = some (r, c) := by
  rw [stepToCell_natCast, advanceCell_iterate_at h]

theorem stepToCellAux_neg (fuel : Nat) :
    ∀ (s r c : Nat) (step : Int), step < 0 → stepToCellAux fuel s r c step = none := by
  induction fuel with
  | zero => intro s r c step _; rfl
  | succ f ih =>
    intro s r c step hstep
    unfold stepToCellAux
    rw [if_neg (by omega)]
    by_cases hcr : c < r
    · rw [if_pos hcr]; exact ih _ _ _ _ hstep
    · rw [if_neg hcr]; exact ih _ _ _ _ hstep

theorem stepToCell_nonneg {step : Int} (h : 0 ≤ step) :
    stepToCell step = some (advanceCell^[step.toNat] (0, 0)) := by
  have hcast : ((step.toNat : Nat) : Int) = step := Int.toNat_of_nonneg h
  calc stepToCell step = stepToCell ((step.toNat : Nat) : Int) := by rw [hcast]
    _ = some (advanceCell^[step.toNat] (0, 0)) := stepToCell_natCast _

/-- C1: for every `n ≥ 1`, `buildPascal n` returns exactly `n` rows, row `r`
has `r+1` entries, `entry(r,0) = entry(r,r) = 1` for every `r < n`,
`entry(r,c) = entry(r-1,c-1) + entry(r-1,c)` for every `0 < c < r < n`, and
every entry equals the binomial coefficient `C(r,c)`. -/
theorem claim_C1 (n : Nat) (h : 1 ≤ n) :
    (buildPascal n).length = n ∧
    (∀ r, r < n → ((buildPascal n).getD r []).length = r + 1) ∧
    (∀ r, r < n → entry n r 0 = 1 ∧ entry n r r = 1) ∧
    (∀ r c, 0 < c → c < r → r < n →
      entry n r c = entry n (r - 1) (c - 1) + entry n (r - 1) c) ∧
    (∀ r c, c ≤ r → r < n → entry n r c = Nat.choose r c) := by
  refine ⟨buildPascal_length h, fun r hr => buildPascal_row_length h hr, ?_, ?_, ?_⟩
  · intro r hr
    rw [entry_eq_choose h hr (Nat.zero_le r), entry_eq_choose h hr (Nat.le_refl r)]
    exact ⟨Nat.choose_zero_right r, Nat.choose_self r⟩
  · intro r c hc hcr hrn
    rw [entry_eq_choose h hrn (by omega), entry_eq_choose h (by omega) (by omega),
      entry_eq_choose h (by omega) (by omega)]
    obtain ⟨r', rfl⟩ : ∃ r', r = r' + 1 := ⟨r - 1, by omega⟩
    obtain ⟨c', rfl⟩ : ∃ c', c = c' + 1 := ⟨c - 1, by omega⟩
    simp only [Nat.add_sub_cancel]
    exact Nat.choose_succ_succ r' c'
  · intro r c hc hr
    exact entry_eq_choose h hr hc

theorem claim_C1_witness :
    (buildPascal 3).length = 3 ∧ entry 3 2 1 = Nat.choose 2 1 :=
  ⟨(claim_C1 3 (by decide)).1,
    (claim_C1 3 (by decide)).2.2.2.2 2 1 (by decide) (by decide)⟩

/-- C2: for every `n ≥ 1`, `totalSteps n = n(n+1)/2`, and `stepToCell`
inverts the row-major numbering: `stepToCell (r(r+1)/2 + c) = (r, c)` for
`0 ≤ c ≤ r < n`, with `stepToCell 0 = (0,0)` and
`stepToCell (totalSteps n - 1) = (n-1, n-1)`. -/
theorem claim_C2 (n : Nat) (h : 1 ≤ n) :
    totalSteps n = n * (n + 1) / 2 ∧
    (∀ r c : Nat, c ≤ r → r < n →
      stepToCell ((r * (r + 1) / 2 + c : Nat) : Int) = some (r, c)) ∧
    stepToCell 0 = some (0, 0) ∧
    stepToCell ((totalSteps n - 1 : Nat) : Int) = some (n - 1, n - 1) := by
  refine ⟨totalSteps_eq n, ?_, ?_, ?_⟩
  · intro r c hcr _
    rw [show r * (r + 1) / 2 + c = totalSteps r + c by rw [totalSteps_eq]]
    exact stepToCell_rowMajor hcr
  · simpa using stepToCell_rowMajor (Nat.le_refl 0)
  · have h1 : totalSteps n - 1 = totalSteps (n - 1) + (n - 1) := by
      obtain ⟨m, rfl⟩ := Nat.exists_eq_add_of_le h
      rw [Nat.add_comm 1 m, totalSteps_succ]
      simp only [Nat.add_sub_cancel]
      omega
    rw [h1]
    exact stepToCell_rowMajor (Nat.le_refl (n - 1))

theorem claim_C2_witness :
    totalSteps 3 = 3 * (3 + 1) / 2 ∧
      stepToCell ((2 * (2 + 1) / 2 + 1 : Nat) : Int) = some (2, 1) :=
  ⟨(claim_C2 3 (by decide)).1, (claim_C2 3 (by decide)).2.1 2 1 (by decide) (by decide)⟩

/-- C7 counterexample: `stepToCell` takes no row count and performs no range
check.  For `n = 3` the valid range is `[0, 5]`, yet `stepToCell 6` does not
fail: it returns the coordinate `(3, 0)` (a cell outside the 3-row
triangle). -/
theorem claim_C7_counterexample :
    totalSteps 3 = 6 ∧ stepToCell 6 = some (3, 0) := by decide

/-- C7 amended: `stepToCell` performs no out-of-range check and reports no
error.  For any step `≥ totalSteps n` it returns a coordinate whose row lies
at or beyond row `n` (a wrong coordinate for an `n`-row triangle), and for
negative steps the search loop never returns at all, whatever the fuel. -/
theorem claim_C7 :
    (∀ n k : Nat, totalSteps n ≤ k →
      ∃ r c : Nat, stepToCell (k : Int) = some (r, c) ∧ n ≤ r) ∧
    (∀ (step : Int) (fuel s r c : Nat), step < 0 →
      stepToCellAux fuel s r c step = none) := by
  constructor
  · intro n k hk
    obtain ⟨h1, h2⟩ := advanceCell_iterate_inv k
    set p := advanceCell^[k] (0, 0) with hp
    obtain ⟨r, c⟩ := p
    simp only at h1 h2
    refine ⟨r, c, by rw [stepToCell_natCast, ← hp], ?_⟩
    by_contra hlt
    push_neg at hlt
    have hmono : totalSteps (r + 1) ≤ totalSteps n := totalSteps_mono (by omega)
    rw [totalSteps_succ] at hmono
    omega
  · intro step fuel s r c hstep
    exact stepToCellAux_neg fuel s r c step hstep

theorem claim_C7_witness :
    (∃ r c : Nat, stepToCell ((6 : Nat) : Int) = some (r, c) ∧ 3 ≤ r) ∧
      stepToCellAux 4 0 0 0 (-2) = none :=
  ⟨claim_C7.1 3 6 (by decide), claim_C7.2 (-2) 4 0 0 0 (by decide)⟩

/-- C10: the search loop of `stepToCell` terminates with a cell for every
step `≥ 0` (reaching the target after finitely many iterations of its running
counter), and for every negative step it has no exit: no fuel bound, from any
loop state, makes it return. -/
theorem claim_C10 :
    (∀ step : Int, 0 ≤ step → ∃ p : Nat × Nat, stepToCell step = some p) ∧
    (∀ (step : Int) (fuel s r c : Nat), step < 0 →
      stepToCellAux fuel s r c step = none) := by
  constructor
  · intro step h
    exact ⟨advanceCell^[step.toNat] (0, 0), stepToCell_nonneg h⟩
  · intro step fuel s r c hstep
    exact stepToCellAux_neg fuel s r c step hstep

theorem claim_C10_witness :
    (∃ p : Nat × Nat, stepToCell 7 = some p) ∧ stepToCellAux 9 0 0 0 (-1) = none :=
  ⟨claim_C10.1 7 (by decide), claim_C10.2 (-1) 9 0 0 0 (by decide)⟩

theorem applyOp_bounds {T : Nat} (hT : 1 ≤ T) (s : ControllerState) (op : StepOp)
    (h1 : -1 ≤ s.currentStep) (_h2 : s.currentStep ≤ (T : Int) - 1) :
    -1 ≤ (applyOp T s op).currentStep ∧ (applyOp T s op).currentStep ≤ (T : Int) - 1 := by
  cases op
  · simp only [applyOp, manualStep]
    constructor
    · rcases le_total (s.currentStep + 1) ((T : Int) - 1) with hle | hle
      · rw [min_eq_left hle]; omega
      · rw [min_eq_right hle]; omega
    · exact min_le_right _ _
  · simp only [applyOp, resetState]
    omega

theorem runOps_bounds {T : Nat} (hT : 1 ≤ T) (ops : List StepOp) :
    ∀ s : ControllerState, -1 ≤ s.currentStep → s.currentStep ≤ (T : Int) - 1 →
      -1 ≤ (runOps T s ops).currentStep ∧ (runOps T s ops).currentStep ≤ (T : Int) - 1 := by
  induction ops with
  | nil => intro s h1 h2; exact ⟨h1, h2⟩
  | cons op ops ih =>
    intro s h1 h2
    obtain ⟨g1, g2⟩ := applyOp_bounds hT s op h1 h2
    exact ih (applyOp T s op) g1 g2

/-- C3 counterexample: with `n = 4` (`totalSteps = 10`), starting from
`currentStep = -1` while playing, ten interval ticks advance the step to `9`
(revealing every cell) but emit no completion signal at all, and playback is
still on afterwards — contradicting the claim that simulating 10 ticks emits
exactly one completion signal, on the 10th tick, after which playback stops.
A tick with `prev = k` moves the step to `k + 1` unless `prev >= total - 1`,
so the completion branch is first reached on the eleventh tick. -/
theorem claim_C3_counterexample :
    totalSteps 4 = 10 ∧
    (tick (totalSteps 4))^[10] { currentStep := -1, isPlaying := true, completions := 0 } =
      { currentStep := 9, isPlaying := true, completions := 0 } := by decide

/-- C3 amended: from `stepIndex = -1` with playback on and `n = 4`
(`totalSteps = 10`), the first ten ticks reveal all cells (step reaches `9`)
and emit no completion signal; the eleventh tick emits exactly one completion
signal and playback becomes Stopped immediately after that tick. -/
theorem claim_C3 :
    totalSteps 4 = 10 ∧
    (∀ k : Fin 11, ((tick (totalSteps 4))^[k.val]
      { currentStep := -1, isPlaying := true, completions := 0 }).completions = 0) ∧
    (tick (totalSteps 4))^[11] { currentStep := -1, isPlaying := true, completions := 0 } =
      { currentStep := 9, isPlaying := false, completions := 1 } := by decide

/-- C4: under every sequence of manual advances and resets the step index
starts at `-1` and stays within `[-1, totalSteps-1]`; an advance strictly
below `totalSteps - 1` adds exactly `1`, an advance at `totalSteps - 1` is a
no-op, an advance never decreases the index of an in-range state, and a reset
(including the rows-changed reset) sets it to `-1`. -/
theorem claim_C4 (n : Nat) (h : 1 ≤ n) :
    initState.currentStep = -1 ∧
    (∀ ops : List StepOp,
      -1 ≤ (runOps (totalSteps n) initState ops).currentStep ∧
      (runOps (totalSteps n) initState ops).currentStep ≤ ((totalSteps n : Nat) : Int) - 1) ∧
    (∀ s : ControllerState, -1 ≤ s.currentStep →
      s.currentStep < ((totalSteps n : Nat) : Int) - 1 →
      (manualStep (totalSteps n) s).currentStep = s.currentStep + 1) ∧
    (∀ s : ControllerState, s.currentStep = ((totalSteps n : Nat) : Int) - 1 →
      (manualStep (totalSteps n) s).currentStep = s.currentStep) ∧
    (∀ s : ControllerState, s.currentStep ≤ ((totalSteps n : Nat) : Int) - 1 →
      s.currentStep ≤ (manualStep (totalSteps n) s).currentStep) ∧
    (∀ s : ControllerState, (resetState s).currentStep = -1) := by
  have hT : 1 ≤ totalSteps n := by
    calc 1 = totalSteps 1 := rfl
    _ ≤ totalSteps n := totalSteps_mono h
  refine ⟨rfl, ?_, ?_, ?_, ?_, fun s => rfl⟩
  · intro ops
    refine runOps_bounds hT ops initState (Int.le_refl _) ?_
    show (-1 : Int) ≤ (totalSteps n : Int) - 1
    omega
  · intro s h1 h2
    simp only [manualStep]
    rw [min_eq_left (by omega)]
  · intro s hs
    simp only [manualStep]
    rw [min_eq_right (by omega), hs]
  · intro s h2
    simp only [manualStep]
    rcases le_total (s.currentStep + 1) ((totalSteps n : Int) - 1) with hle | hle
    · rw [min_eq_left hle]; omega
    · rw [min_eq_right hle]; omega

theorem claim_C4_witness :
    (-1 ≤ (runOps (totalSteps 2) initState [StepOp.advance, StepOp.advance]).currentStep ∧
      (runOps (totalSteps 2) initState [StepOp.advance, StepOp.advance]).currentStep ≤
        ((totalSteps 2 : Nat) : Int) - 1) ∧
    (manualStep (totalSteps 2) initState).currentStep = initState.currentStep + 1 ∧
    (resetState { currentStep := 2, isPlaying := true, completions := 0 }).currentStep = -1 :=
  ⟨(claim_C4 2 (by decide)).2.1 [StepOp.advance, StepOp.advance],
   (claim_C4 2 (by decide)).2.2.1 initState (by decide) (by decide),
   (claim_C4 2 (by decide)).2.2.2.2.2 { currentStep := 2, isPlaying := true, completions := 0 }⟩

/-- C5: manual stepping never emits a completion signal — any number of
manual advances, including saturating attempts past the terminal step, leaves
the completion count unchanged — and completion can only result from a tick
while playback is Playing: with playback off no interval exists (a tick
changes nothing), so a tick that changes the completion count implies the
state was Playing. -/
theorem claim_C5 (total : Nat) (s : ControllerState) :
    (∀ k : Nat, ((manualStep total)^[k] s).completions = s.completions) ∧
    (s.isPlaying = false → tick total s = s) ∧
    ((tick total s).completions ≠ s.completions → s.isPlaying = true) := by
  refine ⟨?_, ?_, ?_⟩
  · intro k
    induction k with
    | zero => rfl
    | succ m ih =>
      rw [Function.iterate_succ_apply']
      simp only [manualStep]
      exact ih
  · intro hp
    simp [tick, hp]
  · intro hne
    cases hsp : s.isPlaying
    · exfalso
      apply hne
      rw [show tick total s = s from by simp [tick, hsp]]
    · rfl

theorem claim_C5_witness :
    ((manualStep 10)^[12]
      { currentStep := -1, isPlaying := false, completions := 0 }).completions = 0 ∧
    tick 10 { currentStep := 9, isPlaying := false, completions := 0 } =
      { currentStep := 9, isPlaying := false, completions := 0 } :=
  ⟨(claim_C5 10 { currentStep := -1, isPlaying := false, completions := 0 }).1 12,
   (claim_C5 10 { currentStep := 9, isPlaying := false, completions := 0 }).2.1 rfl⟩

theorem find?_eq_some_unique {α : Type} (p : α → Bool) :
    ∀ (l : List α) (a : α), a ∈ l → p a = true →
      (∀ b ∈ l, p b = true → b = a) → l.find? p = some a := by
  intro l
  induction l with
  | nil => intro a ha _ _; cases ha
  | cons x xs ih =>
    intro a ha hpa huniq
    by_cases hx : p x = true
    · have hxa : x = a := huniq x (List.mem_cons_self x xs) hx
      rw [List.find?_cons_of_pos _ hx, hxa]
    · rw [List.find?_cons_of_neg _ hx]
      have ha' : a ∈ xs := by
        rcases List.mem_cons.mp ha with heq | hmem
        · exact absurd (heq ▸ hpa) hx
        · exact hmem
      exact ih a ha' hpa fun b hb hpb => huniq b (List.mem_cons_of_mem _ hb) hpb

theorem positions_mem {rows : Nat} {w h : ℚ} {q : CellPos} :
    q ∈ positions rows w h ↔
      ∃ r c : Nat, r < rows ∧ c < ((buildPascal rows).getD r []).length ∧
        q = { x := posX rows w h r c, y := posY rows w h r, row := r, col := c,
              value := ((buildPascal rows).getD r []).getD c 0 } := by
  unfold positions
  simp only [List.mem_flatMap, List.mem_map, List.mem_range]
  constructor
  · rintro ⟨r, hr, c, hc, rfl⟩
    exact ⟨r, c, hr, hc, rfl⟩
  · rintro ⟨r, c, hr, hc, rfl⟩
    exact ⟨r, hr, c, hc, rfl⟩

theorem findPos_positions {rows : Nat} {w h : ℚ} {r c : Nat}
    (hr : r < rows) (hc : c < ((buildPascal rows).getD r []).length) :
    findPos (positions rows w h) r c =
      some { x := posX rows w h r c, y := posY rows w h r, row := r, col := c,
             value := ((buildPascal rows).getD r []).getD c 0 } := by
  apply find?_eq_some_unique
  · exact positions_mem.mpr ⟨r, c, hr, hc, rfl⟩
  · simp
  · intro b hb hpb
    obtain ⟨r', c', hr', hc', rfl⟩ := positions_mem.mp hb
    simp only [Bool.and_eq_true, beq_iff_eq] at hpb
    obtain ⟨h1, h2⟩ := hpb
    subst h1
    subst h2
    rfl

theorem cellCmds_placeholder_mem {rows : Nat} {step : Int} {w h : ℚ} {r c : Nat}
    (hr : r < rows) (hc : c < ((buildPascal rows).getD r []).length)
    (hvis : ¬ ((rowLenSum rows r + c : Nat) : Int) ≤ step) :
    DrawCmd.placeholderCmd r c (posX rows w h r c) (posY rows w h r) '?' ∈
      cellCmds rows step w h := by
  unfold cellCmds
  simp only [List.mem_flatMap, List.mem_range]
  refine ⟨r, hr, c, hc, ?_⟩
  rw [findPos_positions hr hc]
  simp only [if_neg hvis]
  simp

theorem cellCmds_value_mem {rows : Nat} {step : Int} {w h : ℚ} {r c : Nat}
    (hr : r < rows) (hc : c < ((buildPascal rows).getD r []).length)
    (hvis : ((rowLenSum rows r + c : Nat) : Int) ≤ step) :
    DrawCmd.cellValue r c (posX rows w h r c) (posY rows w h r)
      (((buildPascal rows).getD r []).getD c 0) ∈ cellCmds rows step w h := by
  unfold cellCmds
  simp only [List.mem_flatMap, List.mem_range]
  refine ⟨r, hr, c, hc, ?_⟩
  rw [findPos_positions hr hc]
  simp only [if_pos hvis]
  simp

theorem cellCmds_formula_mem {rows : Nat} {step : Int} {w h : ℚ} {r c : Nat}
    (hr : r < rows) (hc : c < ((buildPascal rows).getD r []).length)
    (hcond : activeAddition step = some (r, c) ∧ ((rowLenSum rows r + c : Nat) : Int) = step ∧
      0 < r ∧ 0 < c ∧ c < r) :
    DrawCmd.formulaCmd r c (posX rows w h r c)
      (posY rows w h r + cellSize rows w h / 2 + 8)
      (((buildPascal rows).getD (r - 1) []).getD (c - 1) 0)
      (((buildPascal rows).getD (r - 1) []).getD c 0)
      (((buildPascal rows).getD r []).getD c 0) ∈ cellCmds rows step w h := by
  unfold cellCmds
  simp only [List.mem_flatMap, List.mem_range]
  refine ⟨r, hr, c, hc, ?_⟩
  rw [findPos_positions hr hc]
  have hvis : ((rowLenSum rows r + c : Nat) : Int) ≤ step := le_of_eq hcond.2.1
  simp only [if_pos hvis, if_pos hcond]
  simp

theorem cellCmds_mem {rows : Nat} {step : Int} {w h : ℚ} {cmd : DrawCmd}
    (hmem : cmd ∈ cellCmds rows step w h) :
    ∃ r c : Nat, r < rows ∧ c < ((buildPascal rows).getD r []).length ∧
      ((((rowLenSum rows r + c : Nat) : Int) ≤ step ∧
        (cmd = DrawCmd.cellValue r c (posX rows w h r c) (posY rows w h r)
            (((buildPascal rows).getD r []).getD c 0) ∨
         (activeAddition step = some (r, c) ∧
            ((rowLenSum rows r + c : Nat) : Int) = step ∧ 0 < r ∧ 0 < c ∧ c < r ∧
          cmd = DrawCmd.formulaCmd r c (posX rows w h r c)
            (posY rows w h r + cellSize rows w h / 2 + 8)
            (((buildPascal rows).getD (r - 1) []).getD (c - 1) 0)
            (((buildPascal rows).getD (r - 1) []).getD c 0)
            (((buildPascal rows).getD r []).getD c 0)))) ∨
       (¬ ((rowLenSum rows r + c : Nat) : Int) ≤ step ∧
        cmd = DrawCmd.placeholderCmd r c (posX rows w h r c) (posY rows w h r) '?')) := by
  unfold cellCmds at hmem
  simp only [List.mem_flatMap, List.mem_range] at hmem
  obtain ⟨r, hr, c, hc, hbody⟩ := hmem
  refine ⟨r, c, hr, hc, ?_⟩
  rw [findPos_positions hr hc] at hbody
  by_cases hvis : ((rowLenSum rows r + c : Nat) : Int) ≤ step
  · left
    refine ⟨hvis, ?_⟩
    simp only [if_pos hvis] at hbody
    rcases List.mem_cons.mp hbody with hcmd | hcmd
    · exact Or.inl hcmd
    · right
      by_cases hcond : activeAddition step = some (r, c) ∧
          ((rowLenSum rows r + c : Nat) : Int) = step ∧ 0 < r ∧ 0 < c ∧ c < r
      · simp only [if_pos hcond, List.mem_singleton] at hcmd
        exact ⟨hcond.1, hcond.2.1, hcond.2.2.1, hcond.2.2.2.1, hcond.2.2.2.2, hcmd⟩
      · simp only [if_neg hcond, List.not_mem_nil] at hcmd
  · right
    simp only [if_neg hvis, List.mem_singleton] at hbody
    exact ⟨hvis, hbody⟩

theorem arrowCmds_shape {rows : Nat} {step : Int} {w h : ℚ} {cmd : DrawCmd}
    (hmem : cmd ∈ arrowCmds rows step w h) :
    ∃ (x1 y1 x2 y2 : ℚ) (b : Bool), cmd = DrawCmd.arrowCmd x1 y1 x2 y2 b := by
  unfold arrowCmds at hmem
  simp only [List.mem_flatMap, List.mem_range] at hmem
  obtain ⟨k, hk, c, hc, hbody⟩ := hmem
  by_cases hskip : ((rowLenSum rows (k + 1) + c : Nat) : Int) > step
  · rw [if_pos hskip] at hbody
    cases hbody
  · rw [if_neg hskip] at hbody
    rcases hchild : findPos (positions rows w h) (k + 1) c with _ | child
    · rw [hchild] at hbody
      cases hbody
    · rw [hchild] at hbody
      rcases List.mem_append.mp hbody with hside | hside
      · by_cases hcpos : 0 < c
        · rw [if_pos hcpos] at hside
          rcases hlp : findPos (positions rows w h) (k + 1 - 1) (c - 1) with _ | lp
          · rw [hlp] at hside
            cases hside
          · rw [hlp] at hside
            rcases List.mem_singleton.mp hside with rfl
            exact ⟨_, _, _, _, _, rfl⟩
        · rw [if_neg hcpos] at hside
          cases hside
      · by_cases hcr : c < (((buildPascal rows).getD (k + 1) []).length) - 1
        · rw [if_pos hcr] at hside
          rcases hrp : findPos (positions rows w h) (k + 1 - 1) c with _ | rp
          · rw [hrp] at hside
            cases hside
          · rw [hrp] at hside
            rcases List.mem_singleton.mp hside with rfl
            exact ⟨_, _, _, _, _, rfl⟩
        · rw [if_neg hcr] at hside
          cases hside

theorem activeAddition_of_stepToCell {step : Int} (h0 : 0 ≤ step) {r0 c0 : Nat}
    (hstep : stepToCell step = some (r0, c0)) :
    activeAddition step = if 0 < r0 ∧ 0 < c0 ∧ c0 < r0 then some (r0, c0) else none := by
  unfold activeAddition
  rw [if_neg (by omega : ¬ step < 0), hstep]

theorem drawCommands_mem {rows : Nat} {step : Int} {w h : ℚ} {cmd : DrawCmd}
    (hmem : cmd ∈ drawCommands rows step w h) :
    cmd = DrawCmd.background w h ∨ cmd ∈ arrowCmds rows step w h ∨
      cmd ∈ cellCmds rows step w h ∨
      cmd = DrawCmd.titleCmd (max 0 (step + 1)) (totalSteps rows)
        (progressPct step (totalSteps rows)) := by
  unfold drawCommands at hmem
  rcases List.mem_cons.mp hmem with hcase | hcase
  · exact Or.inl hcase
  · rcases List.mem_append.mp hcase with h2 | h2
    · rcases List.mem_append.mp h2 with h3 | h3
      · exact Or.inr (Or.inl h3)
      · exact Or.inr (Or.inr (Or.inl h3))
    · exact Or.inr (Or.inr (Or.inr (List.mem_singleton.mp h2)))

/-- C6: the active addition is present exactly for a non-negative step whose
cell `(r, c)` is interior (`0 < c < r`), in which case it is that cell; it is
absent for edge cells and for negative steps.  Concretely, for `n = 5` at
step `4` the active addition is `(2, 1)`, and the frame's rendered formula
command uses `triangle[1][0] = 1` and `triangle[1][1] = 1` summing to
`triangle[2][1] = 2`. -/
theorem claim_C6 :
    (∀ (step : Int) (r c : Nat),
      activeAddition step = some (r, c) ↔
        0 ≤ step ∧ stepToCell step = some (r, c) ∧ 0 < c ∧ c < r) ∧
    activeAddition 4 = some (2, 1) ∧
    entry 5 1 0 = 1 ∧ entry 5 1 1 = 1 ∧ entry 5 2 1 = 2 ∧
    (∃ x y : ℚ, DrawCmd.formulaCmd 2 1 x y 1 1 2 ∈ drawCommands 5 4 800 600) := by
  refine ⟨?_, by decide, by decide, by decide, by decide, ?_⟩
  · intro step r c
    by_cases hneg : step < 0
    · have hnone : activeAddition step = none := by
        unfold activeAddition
        rw [if_pos hneg]
      rw [hnone]
      constructor
      · intro hcontra
        exact absurd hcontra (by simp)
      · rintro ⟨h0, -⟩
        omega
    · have h0 : 0 ≤ step := by omega
      obtain ⟨⟨r0, c0⟩, hsc⟩ : ∃ p, stepToCell step = some p := ⟨_, stepToCell_nonneg h0⟩
      rw [activeAddition_of_stepToCell h0 hsc]
      by_cases hint : 0 < r0 ∧ 0 < c0 ∧ c0 < r0
      · rw [if_pos hint]
        constructor
        · intro hsome
          have hrc : r0 = r ∧ c0 = c := by simpa using hsome
          obtain ⟨rfl, rfl⟩ := hrc
          exact ⟨h0, hsc, hint.2.1, hint.2.2⟩
        · rintro ⟨-, hsc2, -, -⟩
          rw [hsc] at hsc2
          exact hsc2
      · rw [if_neg hint]
        constructor
        · intro hcontra
          exact absurd hcontra (by simp)
        · rintro ⟨-, hsc2, hc, hcr⟩
          exfalso
          rw [hsc] at hsc2
          have hrc : r0 = r ∧ c0 = c := by simpa using hsc2
          obtain ⟨rfl, rfl⟩ := hrc
          exact hint ⟨by omega, hc, hcr⟩
  · refine ⟨posX 5 800 600 2 1, posY 5 800 600 2 + cellSize 5 800 600 / 2 + 8, ?_⟩
    have hmem := @cellCmds_formula_mem 5 4 800 600 2 1 (by decide) (by decide)
      ⟨by decide, by decide, by decide, by decide, by decide⟩
    have hmem2 : DrawCmd.formulaCmd 2 1 (posX 5 800 600 2 1)
        (posY 5 800 600 2 + cellSize 5 800 600 / 2 + 8) 1 1 2 ∈ cellCmds 5 4 800 600 := hmem
    unfold drawCommands
    exact List.mem_cons_of_mem _
      (List.mem_append.mpr (Or.inl (List.mem_append.mpr (Or.inr hmem2))))

/-- C8: a cell whose row-major reveal index exceeds the current step index is
rendered as the dimmed placeholder carrying the unknown-value marker, and no
command carrying that cell's numeric value (`cellValue` or a `formulaCmd`
attached to it) occurs in the frame; every formula command in any frame
refers only to parent cells whose reveal indices are at most the current
step; and at `stepIndex = -1` no cell-value or formula command occurs in the
frame at all. -/
theorem claim_C8 :
    (∀ (n : Nat) (step : Int) (w h : ℚ) (r c : Nat), c ≤ r → r < n →
      step < ((totalSteps r + c : Nat) : Int) →
      DrawCmd.placeholderCmd r c (posX n w h r c) (posY n w h r) '?' ∈
        drawCommands n step w h ∧
      (∀ (x y : ℚ) (v : Nat), DrawCmd.cellValue r c x y v ∉ drawCommands n step w h) ∧
      (∀ (x y : ℚ) (l rg v : Nat),
        DrawCmd.formulaCmd r c x y l rg v ∉ drawCommands n step w h)) ∧
    (∀ (n : Nat) (w h : ℚ) (r c : Nat) (x y : ℚ) (v : Nat),
      DrawCmd.cellValue r c x y v ∉ drawCommands n (-1) w h) ∧
    (∀ (n : Nat) (w h : ℚ) (r c : Nat) (x y : ℚ) (l rg v : Nat),
      DrawCmd.formulaCmd r c x y l rg v ∉ drawCommands n (-1) w h) ∧
    (∀ (n : Nat) (step : Int) (w h : ℚ) (r c : Nat) (x y : ℚ) (l rg v : Nat),
      DrawCmd.formulaCmd r c x y l rg v ∈ drawCommands n step w h →
      ((totalSteps (r - 1) + (c - 1) : Nat) : Int) ≤ step ∧
      ((totalSteps (r - 1) + c : Nat) : Int) ≤ step) := by
  refine ⟨?_, ?_, ?_, ?_⟩
  · intro n step w h r c hcr hrn hstep
    have h1n : 1 ≤ n := by omega
    have hlen : ((buildPascal n).getD r []).length = r + 1 := buildPascal_row_length h1n hrn
    have hc' : c < ((buildPascal n).getD r []).length := by omega
    have hls : rowLenSum n r = totalSteps r := rowLenSum_eq h1n (by omega)
    have hvis : ¬ ((rowLenSum n r + c : Nat) : Int) ≤ step := by
      rw [hls]
      omega
    refine ⟨?_, ?_, ?_⟩
    · unfold drawCommands
      exact List.mem_cons_of_mem _
        (List.mem_append.mpr (Or.inl (List.mem_append.mpr
          (Or.inr (cellCmds_placeholder_mem hrn hc' hvis)))))
    · intro x y v hmem
      rcases drawCommands_mem hmem with heq | hmem1 | hmem1 | heq
      · exact DrawCmd.noConfusion heq
      · obtain ⟨a, b, d, e, f, heq⟩ := arrowCmds_shape hmem1
        exact DrawCmd.noConfusion heq
      · obtain ⟨r', c', hr', hc2, hcase⟩ := cellCmds_mem hmem1
        rcases hcase with ⟨hvis', hsub⟩ | ⟨-, heq⟩
        · rcases hsub with heq | ⟨-, -, -, -, -, heq⟩
          · injection heq with e1 e2 e3 e4 e5
            subst e1
            subst e2
            have hls' : rowLenSum n r = totalSteps r := rowLenSum_eq h1n (by omega)
            rw [hls'] at hvis'
            omega
          · exact DrawCmd.noConfusion heq
        · exact DrawCmd.noConfusion heq
      · exact DrawCmd.noConfusion heq
    · intro x y l rg v hmem
      rcases drawCommands_mem hmem with heq | hmem1 | hmem1 | heq
      · exact DrawCmd.noConfusion heq
      · obtain ⟨a, b, d, e, f, heq⟩ := arrowCmds_shape hmem1
        exact DrawCmd.noConfusion heq
      · obtain ⟨r', c', hr', hc2, hcase⟩ := cellCmds_mem hmem1
        rcases hcase with ⟨hvis', hsub⟩ | ⟨-, heq⟩
        · rcases hsub with heq | ⟨-, hidx, -, -, -, heq⟩
          · exact DrawCmd.noConfusion heq
          · injection heq with e1 e2 e3 e4 e5 e6 e7
            subst e1
            subst e2
            have hls' : rowLenSum n r = totalSteps r := rowLenSum_eq h1n (by omega)
            rw [hls'] at hidx
            omega
        · exact DrawCmd.noConfusion heq
      · exact DrawCmd.noConfusion heq
  · intro n w h r c x y v hmem
    rcases drawCommands_mem hmem with heq | hmem1 | hmem1 | heq
    · exact DrawCmd.noConfusion heq
    · obtain ⟨a, b, d, e, f, heq⟩ := arrowCmds_shape hmem1
      exact DrawCmd.noConfusion heq
    · obtain ⟨r', c', hr', hc2, hcase⟩ := cellCmds_mem hmem1
      rcases hcase with ⟨hvis', hsub⟩ | ⟨-, heq⟩
      · omega
      · exact DrawCmd.noConfusion heq
    · exact DrawCmd.noConfusion heq
  · intro n w h r c x y l rg v hmem
    rcases drawCommands_mem hmem with heq | hmem1 | hmem1 | heq
    · exact DrawCmd.noConfusion heq
    · obtain ⟨a, b, d, e, f, heq⟩ := arrowCmds_shape hmem1
      exact DrawCmd.noConfusion heq
    · obtain ⟨r', c', hr', hc2, hcase⟩ := cellCmds_mem hmem1
      rcases hcase with ⟨hvis', hsub⟩ | ⟨-, heq⟩
      · omega
      · exact DrawCmd.noConfusion heq
    · exact DrawCmd.noConfusion heq
  · intro n step w h r c x y l rg v hmem
    rcases drawCommands_mem hmem with heq | hmem1 | hmem1 | heq
    · exact DrawCmd.noConfusion heq
    · obtain ⟨a, b, d, e, f, heq⟩ := arrowCmds_shape hmem1
      exact DrawCmd.noConfusion heq
    · obtain ⟨r', c', hr', hc2, hcase⟩ := cellCmds_mem hmem1
      rcases hcase with ⟨hvis', hsub⟩ | ⟨-, heq⟩
      · rcases hsub with heq | ⟨-, hidx, h0r, h0c, hccr, heq⟩
        · exact DrawCmd.noConfusion heq
        · injection heq with e1 e2 e3 e4 e5 e6 e7
          subst e1
          subst e2
          have h1n : 1 ≤ n := by omega
          have hls' : rowLenSum n r = totalSteps r := rowLenSum_eq h1n (by omega)
          rw [hls'] at hidx
          have hpred : totalSteps (r - 1) + r = totalSteps r := by
            obtain ⟨r2, rfl⟩ : ∃ r2, r = r2 + 1 := ⟨r - 1, by omega⟩
            rw [Nat.add_sub_cancel, totalSteps_succ]
          constructor <;> omega
      · exact DrawCmd.noConfusion heq
    · exact DrawCmd.noConfusion heq

theorem claim_C8_witness :
    DrawCmd.placeholderCmd 1 0 (posX 2 0 0 1 0) (posY 2 0 0 1) '?' ∈
      drawCommands 2 (-1) 0 0 ∧
    (∀ (x y : ℚ) (v : Nat), DrawCmd.cellValue 1 0 x y v ∉ drawCommands 2 (-1) 0 0) ∧
    (∀ (x y : ℚ) (l rg v : Nat),
      DrawCmd.formulaCmd 1 0 x y l rg v ∉ drawCommands 2 (-1) 0 0) :=
  claim_C8.1 2 (-1) 0 0 1 0 (by decide) (by decide) (by decide)

/-- C9 counterexample: with a zero-size viewport the render pass is not a
no-op that draws nothing: at `n = 2`, `step = -1`, `w = h = 0` it still
issues the background fill and a placeholder draw for the apex cell (onto a
zero-area canvas), and the command list is never empty. -/
theorem claim_C9_counterexample :
    DrawCmd.background 0 0 ∈ drawCommands 2 (-1) 0 0 ∧
    (∃ x y : ℚ, DrawCmd.placeholderCmd 0 0 x y '?' ∈ drawCommands 2 (-1) 0 0) ∧
    drawCommands 2 (-1) 0 0 ≠ [] := by
  refine ⟨List.mem_cons_self _ _, ⟨posX 2 0 0 0 0, posY 2 0 0 0, ?_⟩, by simp [drawCommands]⟩
  unfold drawCommands
  refine List.mem_cons_of_mem _
    (List.mem_append.mpr (Or.inl (List.mem_append.mpr (Or.inr ?_))))
  exact cellCmds_placeholder_mem (by decide) (by decide) (by decide)

/-- C9 amended: the source has no zero-viewport guard; `draw` issues its
commands unconditionally (the frame always begins with the background fill
and is never empty), onto a canvas of zero area, and no division by zero
occurs: with `w = h = 0` the size clamp yields `cellSize = 32`, every divisor
(`rows + 2`, `rows + 1`) being a positive integer. -/
theorem claim_C9 (n : Nat) (step : Int) (h : 1 ≤ n) :
    cellSize n 0 0 = 32 ∧
    (drawCommands n step 0 0).head? = some (DrawCmd.background 0 0) ∧
    drawCommands n step 0 0 ≠ [] := by
  refine ⟨?_, rfl, by simp [drawCommands]⟩
  unfold cellSize
  have hzero : (0 : ℚ) / ((n : ℚ) + 2) = 0 := zero_div _
  have hden : (0 : ℚ) < (n : ℚ) + 1 := by positivity
  have hneg : ((0 : ℚ) - 60) / ((n : ℚ) + 1) ≤ 0 :=
    div_nonpos_iff.mpr (Or.inr ⟨by norm_num, le_of_lt hden⟩)
  rw [hzero, min_eq_right hneg, max_eq_left (hneg.trans (by norm_num)),
    min_eq_right (by norm_num : (32 : ℚ) ≤ 48)]

theorem claim_C9_witness :
    cellSize 3 0 0 = 32 ∧
    (drawCommands 3 5 0 0).head? = some (DrawCmd.background 0 0) ∧
    drawCommands 3 5 0 0 ≠ [] :=
  claim_C9 3 5 (by decide)
